import Mathlib

/-!
Verification of the slate core document model (crates/slate/src/types).

Every definition below is a shallow embedding of the corresponding Rust
item, translated clause by clause from the source.  Machine integers
(`usize`) are modelled as `Nat`; `Vec<usize>` as `List Nat`; `Option` as
`Option`; a Rust panic (out-of-bounds index, `unwrap`/`expect` on `None`)
is modelled by an `Option` result being `none` at exactly the program
points where the source can panic.  Where the source subtracts from a
`usize` under a guard that rules out underflow, `Nat` truncated
subtraction agrees with the source; the few genuinely underflowing spots
are noted in comments at the definition.
-/

namespace Slate

/-- Embeds `Path(Vec<usize>)` from path.rs, modelled as the underlying index list. -/
abbrev Path := List Nat

/-- Embeds `Affinity` from path.rs (default `Forward`). -/
inductive Affinity where
  | forward
  | backward
  | none
deriving DecidableEq, Repr

/-- In-place update of one index of a path, used for the
`path.0[i] += 1` / `-= 1` statements of `Path::transform`.  Out-of-range
indices leave the list unchanged; every in-source use is guarded so that
the index is in range (the guards are spelled out at each use site). -/
def modifyIdx : List Nat → Nat → (Nat → Nat) → List Nat
  | [], _, _ => []
  | x :: xs, 0, f => f x :: xs
  | x :: xs, i + 1, f => x :: modifyIdx xs i f

/-- Embeds `impl Ord for Path` (path.rs line 303): indices are compared pairwise
over the common length; exhausting either path yields `Equal`. -/
def Path.cmp : Path → Path → Ordering
  | [], _ => .eq
  | _, [] => .eq
  | a :: as_, b :: bs =>
    match compare a b with
    | .eq => Path.cmp as_ bs
    | o => o

/-- Embeds `Path::ends_before` (path.rs line 94).  Release semantics: for an empty
`self` the index `self.0.len() - 1` wraps to `usize::MAX`, so the
`i >= b.len()` guard fires and the result is `false`. -/
def Path.endsBefore (a b : Path) : Bool :=
  if a.length = 0 then false
  else
    let i := a.length - 1
    if b.length ≤ i then false
    else (a.take i == b.take i) && (a.getD i 0 < b.getD i 0)

/-- Embeds `Path::ends_after` (path.rs line 72).  The guard is `i > other.0.len()`
(strict), so when `i == other.0.len()` the read `other.0[i]` is out of
bounds and the source panics; that case is `none` here. -/
def Path.endsAfter (a b : Path) : Option Bool :=
  if a.length = 0 then some false
  else
    let i := a.length - 1
    if b.length < i then some false
    else if b.length = i then Option.none
    else some ((a.take i == b.take i) && (b.getD i 0 < a.getD i 0))

/-- Embeds `Path::is_ancestor` (path.rs line 114). -/
def Path.isAncestor (a b : Path) : Bool :=
  decide (a.length < b.length) && (Path.cmp a b == .eq)

/-- Embeds `Path::is_sibling` (path.rs line 138).  The source slices
`[..len - 1]` and reads the last elements; for two empty paths it would
panic, a case no caller reaches (each caller first excludes equality). -/
def Path.isSibling (a b : Path) : Bool :=
  (a.length == b.length) && (a.getLastD 0 != b.getLastD 0)
    && (a.dropLast == b.dropLast)

/-- Embeds `Path::next` (path.rs line 162). -/
def Path.next (p : Path) : Option Path :=
  if p.isEmpty then Option.none
  else some (p.dropLast ++ [p.getLastD 0 + 1])

/-- Embeds `Path::previous` (path.rs line 182): `checked_sub` on the last index. -/
def Path.previous (p : Path) : Option Path :=
  if p.isEmpty then Option.none
  else
    match p.getLastD 0 with
    | 0 => Option.none
    | Nat.succ k => some (p.dropLast ++ [k])

/-- Embeds `Path::parent` (path.rs line 174). -/
def Path.parent (p : Path) : Option Path :=
  if p.isEmpty then Option.none else some p.dropLast

/-- The value produced by `Path::next` on a non-empty path; used to state
lemmas about `Path.next` without the `Option` wrapper. -/
def nextList (p : Path) : Path := p.dropLast ++ [p.getLastD 0 + 1]

/-- Embeds `Path::is_before` (path.rs line 118): the strict `<` of the `Ord`. -/
def Path.isBefore (a b : Path) : Bool := Path.cmp a b == .lt

/-- Embeds `Path::is_after` (path.rs line 110): the strict `>` of the `Ord`. -/
def Path.isAfter (a b : Path) : Bool := Path.cmp a b == .gt

/-- Embeds `Text(String, Marks, HashSet<String>)` from text.rs.  The string is a
codepoint list (the spec lets an implementation pick bytes or codepoints
as its offset unit) and `Marks` is the `u32` of the bitflags.  The
metadata `HashSet<String>` is kept as a duplicate-free list: its only
uses below are membership, subset, and `union(&dec).cloned().collect()`,
which becomes `List.union` (every element of either side is an element
of the union and nothing else is). -/
structure Text where
  string : List Char
  marks : Nat
  meta : List String
deriving DecidableEq

/-- Embeds `Point` from point.rs. -/
structure Point where
  path : Path
  offset : Nat
deriving DecidableEq, Repr

/-- Embeds `impl Ord for Point` (point.rs line 12): path order, then offset. -/
def Point.cmp (a b : Point) : Ordering :=
  match Path.cmp a.path b.path with
  | .eq => compare a.offset b.offset
  | o => o

/-- Embeds `Point::is_after` (point.rs line 29). -/
def Point.isAfter (a b : Point) : Bool := Point.cmp a b == .gt

/-- Embeds `Point::is_before` (point.rs line 33). -/
def Point.isBefore (a b : Point) : Bool := Point.cmp a b == .lt

/-- Embeds `Range { anchor, focus }` from range.rs. -/
structure Range where
  anchor : Point
  focus : Point
deriving DecidableEq, Repr

/-- Embeds `Node` from node.rs together with the structs it wraps: `Editor`
(editor.rs) and `Element` (element.rs) both carry an ordered child list,
`Text` is a leaf.  The wrapper enums `Descendant` and `Ancestor` are
injections into this type and need no separate copy.  `Editor` also
carries `selection` and pending `marks`; its `operations : Vec<Operation>`
log is omitted because modelling it would force `Node` and `Operation`
into one mutual inductive while no function modelled here ever reads it
(`Editor` exposes only its children to node.rs). -/
inductive Node where
  | editor (children : List Node) (selection : Option Range) (marks : Option Nat)
  | element (children : List Node)
  | text (t : Text)

/-- Embeds `Operation` from operation.rs: the nine variants, with `String`
payloads as codepoint lists. -/
inductive Operation where
  | insertNode (node : Node) (path : Path)
  | insertText (path : Path) (offset : Nat) (text : List Char)
  | mergeNode (path : Path) (position : Nat) (properties : Node)
  | moveNode (path : Path) (newPath : Path)
  | removeNode (path : Path) (node : Node)
  | removeText (path : Path) (offset : Nat) (text : List Char)
  | setNode (path : Path) (properties : Option Node) (newProperties : Option Node)
  | setSelection (path : Path) (properties : Option Range) (newProperties : Option Range)
  | splitNode (path : Path) (position : Nat) (properties : Node)

/-- Embeds `Path::transform` (path.rs line 206), clause by clause.  `none` covers
both outcomes that are not a returned path: the source's `return None`
(the removed-node cases) and its panics, namely the `path.0[op.0.len()-1]`
writes when `op` is the root path (the index wraps to `usize::MAX`) and,
in the `MoveNode` arm, the `path.0[onp.0.len()-1] += 1` write when the
move's `new_path` is the root.  Every other index write is guarded by a
branch condition that keeps the index in range and the decrements
non-negative, so `modifyIdx` and `Nat` subtraction agree with the source
there (the one exception, `MergeNode` aimed at `path` itself with last
index 0, underflows in the source and is reachable by no claim here). -/
def Path.transform (p : Path) (operation : Operation) (_affinity : Affinity) : Option Path :=
  -- PERF early exit of the source: the root path is never changed.
  if p.isEmpty then some p
  else
    match operation with
    | .insertNode _ op =>
      if op == p || Path.endsBefore op p || Path.isAncestor op p then
        if op.isEmpty then Option.none
        else some (modifyIdx p (op.length - 1) (· + 1))
      else some p
    | .removeNode op _ =>
      if op == p || Path.isAncestor op p then Option.none
      else if Path.endsBefore op p then
        some (modifyIdx p (op.length - 1) (· - 1))
      else some p
    | .mergeNode op position _ =>
      if op == p || Path.endsBefore op p then
        some (modifyIdx p (op.length - 1) (· - 1))
      else if Path.isAncestor op p then
        if op.isEmpty then Option.none
        else some (modifyIdx (modifyIdx p (op.length - 1) (· - 1)) op.length (· + position))
      else some p
    | .splitNode op position _ =>
      if op == p then
        match _affinity with
        | .forward => some (modifyIdx p (p.length - 1) (· + 1))
        | .backward => some p
        | .none => Option.none
      else if Path.endsBefore op p then
        some (modifyIdx p (op.length - 1) (· + 1))
      else if Path.isAncestor op p && decide (p.getD op.length 0 ≥ position) then
        if op.isEmpty then Option.none
        else some (modifyIdx (modifyIdx p (op.length - 1) (· + 1)) op.length (· - position))
      else some p
    | .moveNode op onp =>
      if op == onp then some p
      else if Path.isAncestor op p || op == p then
        let onp' :=
          if Path.endsBefore op onp && decide (op.length < onp.length) then
            modifyIdx onp (op.length - 1) (· - 1)
          else onp
        some (onp' ++ p.drop op.length)
      else if Path.isSibling op onp && (Path.isAncestor onp p || onp == p) then
        if Path.endsBefore op p then
          some (modifyIdx p (op.length - 1) (· - 1))
        else
          some (modifyIdx p (op.length - 1) (· + 1))
      else if Path.endsBefore onp p || onp == p || Path.isAncestor onp p then
        let p1 := if Path.endsBefore op p then modifyIdx p (op.length - 1) (· - 1) else p
        if onp.isEmpty then Option.none
        else some (modifyIdx p1 (onp.length - 1) (· + 1))
      else if Path.endsBefore op p then
        let p1 := if onp == p then modifyIdx p (onp.length - 1) (· + 1) else p
        some (modifyIdx p1 (op.length - 1) (· - 1))
      else some p
    | _ => some p

/-- Embeds `Operation::inverse` (operation.rs line 52).  `none` models the
panics: `expect` on `previous()` for `MergeNode`, `unwrap` on `next()`
for `SplitNode` and the non-sibling `MoveNode`, and the `unwrap`s on the
two `Path::transform` calls of the `MoveNode` case. -/
def Operation.inverse : Operation → Option Operation
  | .insertNode node path => some (.removeNode path node)
  | .insertText path offset text => some (.removeText path offset text)
  | .mergeNode path position properties =>
    (Path.previous path).map fun pp => .splitNode pp position properties
  | .moveNode path newPath =>
    if path == newPath then some (.moveNode path newPath)
    else if Path.isSibling path newPath then some (.moveNode newPath path)
    else do
      let inversePath ← Path.transform path (.moveNode path newPath) .forward
      let pathNext ← Path.next path
      let inverseNewPath ← Path.transform pathNext (.moveNode path newPath) .forward
      some (.moveNode inversePath inverseNewPath)
  | .removeNode path node => some (.insertNode node path)
  | .removeText path offset text => some (.insertText path offset text)
  | .setNode path properties newProperties =>
    some (.setNode path newProperties properties)
  | .setSelection path properties newProperties =>
    match properties, newProperties with
    | Option.none, np => some (.setSelection path np Option.none)
    | some pr, Option.none => some (.setSelection path Option.none (some pr))
    | some pr, some np => some (.setSelection path (some np) (some pr))
  | .splitNode path position properties =>
    (Path.next path).map fun pn => .mergeNode pn position properties

/-- Embeds `Point::transform` (point.rs line 37).  Transcribed with the source's
oddities intact: in the `RemoveText` arm the decrement is
`min(opoffset - opoffset, text.len())` (always zero) and the new path is
`Path::transform` applied to the operation's path, not the point's; the
`MergeNode` and `RemoveNode` arms transform the operation's path as well
(for `RemoveNode` that inner transform returns `None`, so the source's
`unwrap` panics whenever the point survives — `none` here). -/
def Point.transform (point : Point) (op : Operation) (affinity : Affinity) : Option Point :=
  match op with
  | .insertNode _ _ | .moveNode _ _ =>
    (Path.transform point.path op affinity).map fun p' => { point with path := p' }
  | .insertText oppath opoffset text =>
    if oppath == point.path && decide (opoffset ≤ point.offset) then
      some { point with offset := point.offset + text.length }
    else some point
  | .mergeNode oppath oppos _ =>
    let point1 :=
      if oppath == point.path then { point with offset := point.offset + oppos }
      else point
    (Path.transform oppath op affinity).map fun p' => { point1 with path := p' }
  | .removeText oppath opoffset text =>
    let point1 :=
      if oppath == point.path || Path.isAncestor oppath point.path then
        { point with offset := point.offset - min (opoffset - opoffset) text.length }
      else point
    (Path.transform oppath op affinity).map fun p' => { point1 with path := p' }
  | .removeNode oppath _ =>
    if oppath == point.path || Path.isAncestor oppath point.path then Option.none
    else (Path.transform oppath op affinity).map fun p' => { point with path := p' }
  | .splitNode oppath opposition _ =>
    if oppath == point.path then
      if opposition == point.offset && (affinity == Affinity.none) then Option.none
      else if decide (opposition < point.offset)
          || (opposition == point.offset && (affinity == Affinity.forward)) then
        (Path.transform point.path op Affinity.forward).map fun p' =>
          { path := p', offset := point.offset - opposition }
      else some point
    else
      (Path.transform point.path op affinity).map fun p' => { point with path := p' }
  | _ => some point

/-- Embeds `Affinity` from range.rs (default `Inward`). -/
inductive RangeAffinity where
  | forward
  | backward
  | outward
  | inward
  | none
deriving DecidableEq, Repr

/-- Embeds `Range::is_backward` (range.rs line 76). -/
def Range.isBackward (r : Range) : Bool := Point.isAfter r.anchor r.focus

/-- Embeds `Range::is_forward` (range.rs line 88). -/
def Range.isForward (r : Range) : Bool := !r.isBackward

/-- Embeds `Range::is_collapsed` (range.rs line 80). -/
def Range.isCollapsed (r : Range) : Bool := r.anchor == r.focus

/-- Embeds `Range::edges` (range.rs line 30). -/
def Range.edges (r : Range) (reverse : Bool) : Point × Point :=
  if r.isBackward == reverse then (r.anchor, r.focus) else (r.focus, r.anchor)

/-- Embeds `Range::intersection` (range.rs line 61), transcribed with the
source's oddity intact: both edge pairs are read from `self`, so
`another` is never consulted. -/
def Range.intersection (r another : Range) : Option Range :=
  let (s1, e1) := r.edges false
  let (s2, e2) := r.edges false
  let start := if Point.isBefore s1 s2 then s2 else s1
  let e := if Point.isBefore e1 e2 then e1 else e2
  if Point.isBefore e start then Option.none
  else some { anchor := start, focus := e }

/-- Embeds `Range::transform` (range.rs line 97).  Transcribed with the source's
oddity intact: both `Point::transform` calls are applied to
`range.anchor` (line 121), so the focus point is never transformed. -/
def Range.transform (range : Range) (op : Operation) (affinity : RangeAffinity) :
    Option Range :=
  let aff : Affinity × Affinity :=
    match affinity with
    | .inward =>
      if range.isForward then (.forward, .backward) else (.backward, .forward)
    | .outward =>
      if range.isForward then (.backward, .forward) else (.forward, .backward)
    | .forward => (.forward, .forward)
    | .backward => (.backward, .backward)
    | .none => (.none, .none)
  let affinityAnchor := aff.1
  let affinityFocus := aff.2
  let anchor := Point.transform range.anchor op affinityAnchor
  let focus := Point.transform range.anchor op affinityFocus
  match anchor, focus with
  | some a, some f => some { anchor := a, focus := f }
  | _, _ => Option.none

/-- Embeds `Decoration` from text.rs. -/
abbrev Decoration := Range × List String

/-- The inner leaf loop of `Text::decorations` (text.rs lines 48-101) for
one decoration whose edges sit at character offsets `startOff`/`endOff`
and whose tag set is `dec`; `o` is the running character offset.  The one
slice that can leave the string (`middle.0[..off]` at line 86, reachable
when the decoration's start offset exceeds its end offset, which a range
across two different leaves permits) panics in the source and is `none`
here; the remaining slices are guarded in range by the branch tests. -/
def decoLeaves (startOff endOff : Nat) (dec : List String) :
    Nat → List Text → Option (List Text)
  | _, [] => some []
  | o, l :: ls =>
    let len := l.string.length
    let offset := o
    let rest := decoLeaves startOff endOff dec (o + len) ls
    -- If the range encompasses the entire leaf, add the range.
    if startOff ≤ offset ∧ offset + len ≤ endOff then
      rest.map (⟨l.string, l.marks, l.meta.union dec⟩ :: ·)
    -- If the range starts after the leaf, or ends before it, continue.
    else if offset + len < startOff ∨ endOff < offset ∨ (endOff = offset ∧ offset ≠ 0) then
      rest.map (l :: ·)
    else
      -- Otherwise split the leaf at the start, end, or both; the end
      -- split happens first as in the source.
      let ma :=
        if endOff < offset + len then
          let off := endOff - offset
          (Text.mk (l.string.take off) l.marks l.meta,
            [Text.mk (l.string.drop off) l.marks l.meta])
        else (l, [])
      let middle := ma.1
      let after := ma.2
      if offset < startOff then
        let off := startOff - offset
        if off ≤ middle.string.length then
          rest.map fun r =>
            Text.mk (middle.string.take off) middle.marks middle.meta ::
              Text.mk (middle.string.drop off) middle.marks (middle.meta.union dec) ::
                (after ++ r)
        else Option.none
      else
        rest.map fun r =>
          Text.mk middle.string middle.marks (middle.meta.union dec) :: (after ++ r)

/-- The outer decoration loop of `Text::decorations` (text.rs line 45):
one pass of `decoLeaves` per decoration, in input order. -/
def decoFold : List Text → List Decoration → Option (List Text)
  | leaves, [] => some leaves
  | leaves, (range, dec) :: rest =>
    let se := range.edges false
    match decoLeaves se.1.offset se.2.offset dec 0 leaves with
    | some next1 => decoFold next1 rest
    | Option.none => Option.none

/-- Embeds `Text::decorations` (text.rs line 42). -/
def Text.decorations (t : Text) (ds : List Decoration) : Option (List Text) :=
  decoFold [t] ds

/-- Concatenation of the strings of a list of leaves. -/
def textConcat (ls : List Text) : List Char := (ls.map Text.string).join

/-- Embeds `Node::child_node` (node.rs line 68): the `i`-th child as a `Node`. -/
def Node.childNode (n : Node) (i : Nat) : Option Node :=
  match n with
  | .editor cs _ _ => cs[i]?
  | .element cs => cs[i]?
  | .text _ => Option.none

/-- Embeds `Node::has_children` (node.rs line 76). -/
def Node.hasChildren (n : Node) : Bool :=
  match n with
  | .editor cs _ _ => cs.length > 0
  | .element cs => cs.length > 0
  | .text _ => false

/-- Embeds `Node::num_children` (node.rs line 84). -/
def Node.numChildren (n : Node) : Nat :=
  match n with
  | .editor cs _ _ => cs.length
  | .element cs => cs.length
  | .text _ => 0

/-- Embeds `Node::get` (node.rs line 171). -/
def Node.get (n : Node) (p : Path) : Option Node :=
  match p with
  | [] => some n
  | i :: rest =>
    match Node.childNode n i with
    | some c => Node.get c rest
    | Option.none => Option.none

/-- Embeds `Node::has` (node.rs line 188). -/
def Node.has (n : Node) (p : Path) : Bool :=
  match p with
  | [] => true
  | i :: rest =>
    match n with
    | .text _ => false
    | _ =>
      match Node.childNode n i with
      | some c => Node.has c rest
      | Option.none => false

/-- Embeds `NodeIterator` (node.rs line 227).  `from` and `to` are Lean
keywords, so those fields are `fromPath`/`toPath`; the `HashSet<Path>` of
visited paths is kept as the list of inserted paths, queried by
membership. -/
structure NodeIterator where
  root : Node
  n : Node
  p : Path
  fromPath : Path
  toPath : Option Path
  reverse : Bool
  pass : Option (Node × Path → Bool)
  visited : List Path

/-- One `next()` call of the iterator (node.rs line 241).  The result is
`none` when the source would panic (an `unwrap`/`expect` on `None`);
otherwise `some (out, it')` where `out` is the yielded
`Option<(Node, Path)>` — `None` ends the iteration for callers such as
`collect` — and `it'` the mutated state.  In the backward step the
source reads `self.p.get(self.p.len() - 6)` (the `- 6` is flagged by the
spec as a typo); in release the subtraction wraps for short paths and
`get` returns `None`. -/
def NodeIterator.next (it : NodeIterator) : Option (Option (Node × Path) × NodeIterator) :=
  let stop := match it.toPath with
    | some t => (it.reverse && Path.isBefore it.p t) || Path.isAfter it.p t
    | Option.none => false
  if stop then some (Option.none, it)
  else
    let out : Option (Node × Path) :=
      if it.visited.contains it.p then Option.none else some (it.n, it.p)
    let passv := match it.pass with
      | some f => f (it.n, it.p)
      | Option.none => false
    let isText := match it.n with
      | .text _ => true
      | _ => false
    -- If we're allowed to go downward and we haven't descended yet, do.
    if !it.visited.contains it.p && !isText && Node.hasChildren it.n
        && (it.pass.isNone || passv) then
      let visited1 := it.p :: it.visited
      let nextIndex := if it.reverse then Node.numChildren it.n - 1 else 0
      -- `self.from.get(self.p.len()).unwrap()`: under the `is_ancestor`
      -- guard the index is in range, so `getD` agrees with the `unwrap`.
      let nextIndex :=
        if Path.isAncestor it.p it.fromPath then it.fromPath.getD it.p.length 0
        else nextIndex
      let p1 := it.p ++ [nextIndex]
      match Node.get it.root p1 with
      | some n1 => some (out, { it with visited := visited1, p := p1, n := n1 })
      | Option.none => Option.none
    -- If we're at the root and we can't go down, we're done.
    else if it.p.length == 0 then some (out, it)
    -- If we're going forward...
    else if !it.reverse then
      match Path.next it.p with
      | Option.none => Option.none
      | some np =>
        if Node.has it.root np then
          match Node.get it.root np with
          | some n1 => some (out, { it with p := np, n := n1 })
          | Option.none => Option.none
        else
          match Path.parent it.p with
          | Option.none => Option.none
          | some pp =>
            match Node.get it.root pp with
            | some n1 =>
              some (out, { it with p := pp, n := n1, visited := pp :: it.visited })
            | Option.none => Option.none
    -- If we're going backward...
    else
      let idx6 : Option Nat :=
        if 6 ≤ it.p.length then some (it.p.getD (it.p.length - 6) 0) else Option.none
      if idx6 != some 0 then
        match Path.previous it.p with
        | Option.none => Option.none
        | some pv =>
          match Node.get it.root pv with
          | some n1 => some (out, { it with p := pv, n := n1 })
          | Option.none => Option.none
      else
        match Path.parent it.p with
        | Option.none => Option.none
        | some pp =>
          match Node.get it.root pp with
          | some n1 =>
            some (out, { it with p := pp, n := n1, visited := pp :: it.visited })
          | Option.none => Option.none

/-- Embeds `Node::nodes` (node.rs line 208): the iterator with its default
bounds (`from` the root, no `to`, forward, no pass). -/
def Node.nodes (n : Node) : NodeIterator :=
  ⟨n, n, [], [], Option.none, false, Option.none, []⟩

/-- Drive the iterator the way Rust's `collect` does: call `next` until
it yields `None`.  `none` if a step panics or the fuel runs out. -/
def runIter : Nat → NodeIterator → Option (List (Node × Path))
  | 0, _ => Option.none
  | fuel + 1, it =>
    match NodeIterator.next it with
    | Option.none => Option.none
    | some (Option.none, _) => some []
    | some (some e, it1) => (runIter fuel it1).map (e :: ·)

mutual

/-- The number of nodes of a document tree (the `k` of the iterator
claim). -/
def Node.count : Node → Nat
  | .editor cs _ _ => 1 + Node.countList cs
  | .element cs => 1 + Node.countList cs
  | .text _ => 1

def Node.countList : List Node → Nat
  | [] => 0
  | n :: ns => Node.count n + Node.countList ns

end

/-- The five-node document `Editor{ Element{ Text("a") }, Element{ Text("b") } }`
of the repository's own `nodes_multiple_elements` test. -/
def twoElementTree : Node :=
  .editor [.element [.text ⟨['a'], 0, []⟩], .element [.text ⟨['b'], 0, []⟩]]
    Option.none Option.none

/-! ### Supporting lemmas about `modifyIdx` -/

theorem modifyIdx_length (l : List Nat) (i : Nat) (f : Nat → Nat) :
    (modifyIdx l i f).length = l.length := by
  induction l generalizing i with
  | nil => rfl
  | cons x xs ih =>
    cases i with
    | zero => rfl
    | succ j => simp [modifyIdx, ih]

theorem modifyIdx_of_length_le (l : List Nat) (i : Nat) (f : Nat → Nat)
    (h : l.length ≤ i) : modifyIdx l i f = l := by
  induction l generalizing i with
  | nil => rfl
  | cons x xs ih =>
    cases i with
    | zero => simp at h
    | succ j => simp only [modifyIdx]; rw [ih j (by simpa using h)]

theorem modifyIdx_take (l : List Nat) (i k : Nat) (f : Nat → Nat)
    (h : k ≤ i) : (modifyIdx l i f).take k = l.take k := by
  induction l generalizing i k with
  | nil => rfl
  | cons x xs ih =>
    cases i with
    | zero =>
      have hk : k = 0 := Nat.le_zero.mp h
      subst hk; rfl
    | succ j =>
      cases k with
      | zero => rfl
      | succ m => simp only [modifyIdx, List.take_succ_cons]; rw [ih j m (by omega)]

theorem modifyIdx_getD (l : List Nat) (i : Nat) (f : Nat → Nat)
    (h : i < l.length) : (modifyIdx l i f).getD i 0 = f (l.getD i 0) := by
  induction l generalizing i with
  | nil => simp at h
  | cons x xs ih =>
    cases i with
    | zero => rfl
    | succ j => simpa [modifyIdx] using ih j (by simpa using h)

theorem modifyIdx_getD_ne (l : List Nat) (i j : Nat) (f : Nat → Nat)
    (h : i ≠ j) : (modifyIdx l i f).getD j 0 = l.getD j 0 := by
  induction l generalizing i j with
  | nil => rfl
  | cons x xs ih =>
    cases i with
    | zero => cases j with
      | zero => exact absurd rfl h
      | succ m => rfl
    | succ k => cases j with
      | zero => rfl
      | succ m => simpa [modifyIdx] using ih k m (by omega)

theorem modifyIdx_modifyIdx (l : List Nat) (i : Nat) (f g : Nat → Nat) :
    modifyIdx (modifyIdx l i f) i g = modifyIdx l i (fun v => g (f v)) := by
  induction l generalizing i with
  | nil => rfl
  | cons x xs ih =>
    cases i with
    | zero => rfl
    | succ j => simp [modifyIdx, ih]

theorem modifyIdx_eq_self (l : List Nat) (i : Nat) (f : Nat → Nat)
    (h : f (l.getD i 0) = l.getD i 0) : modifyIdx l i f = l := by
  induction l generalizing i with
  | nil => rfl
  | cons x xs ih =>
    cases i with
    | zero => simpa [modifyIdx] using h
    | succ j => simp only [modifyIdx, List.cons.injEq, true_and]; exact ih j h

theorem modifyIdx_append_last (l : List Nat) (x : Nat) (f : Nat → Nat) :
    modifyIdx (l ++ [x]) l.length f = l ++ [f x] := by
  induction l with
  | nil => rfl
  | cons y ys ih => simp [modifyIdx, ih]

/-! ### Supporting lemmas about paths -/

theorem getLastD_eq_getD (l : List Nat) :
    l.getLastD 0 = l.getD (l.length - 1) 0 := by
  induction l with
  | nil => rfl
  | cons x xs ih =>
    cases xs with
    | nil => rfl
    | cons y ys => simpa using ih

theorem dropLast_append_getLastD (l : List Nat) (h : l ≠ []) :
    l.dropLast ++ [l.getLastD 0] = l := by
  induction l with
  | nil => exact absurd rfl h
  | cons x xs ih =>
    cases xs with
    | nil => rfl
    | cons y ys => simpa using ih (by simp)

theorem cmp_eq_iff (a b : Path) :
    Path.cmp a b = .eq ↔ a = b.take a.length ∨ b = a.take b.length := by
  induction a generalizing b with
  | nil => simp [Path.cmp]
  | cons x xs ih =>
    cases b with
    | nil => simp [Path.cmp]
    | cons y ys =>
      simp only [Path.cmp]
      rcases Nat.lt_trichotomy x y with hxy | hxy | hxy
      · simp only [Nat.compare_eq_lt.mpr hxy]
        constructor
        · intro h; exact absurd h (by decide)
        · rintro (h | h) <;>
            (simp only [List.length_cons, List.take_succ_cons, List.cons.injEq] at h; omega)
      · subst hxy
        simp only [Nat.compare_eq_eq.mpr rfl]
        simpa using ih ys
      · simp only [Nat.compare_eq_gt.mpr hxy]
        constructor
        · intro h; exact absurd h (by decide)
        · rintro (h | h) <;>
            (simp only [List.length_cons, List.take_succ_cons, List.cons.injEq] at h; omega)

theorem ordering_beq_eq_iff (o : Ordering) : (o == Ordering.eq) = true ↔ o = .eq := by
  cases o <;> decide

theorem isAncestor_iff (a b : Path) :
    Path.isAncestor a b = true ↔ a.length < b.length ∧ a = b.take a.length := by
  unfold Path.isAncestor
  rw [Bool.and_eq_true, decide_eq_true_iff, ordering_beq_eq_iff, cmp_eq_iff]
  constructor
  · rintro ⟨hl, h | h⟩
    · exact ⟨hl, h⟩
    · have := congrArg List.length h
      simp at this
      omega
  · rintro ⟨hl, h⟩
    exact ⟨hl, Or.inl h⟩

theorem endsBefore_iff (a b : Path) :
    Path.endsBefore a b = true ↔
      a ≠ [] ∧ a.length - 1 < b.length ∧
        a.take (a.length - 1) = b.take (a.length - 1) ∧
        a.getD (a.length - 1) 0 < b.getD (a.length - 1) 0 := by
  rcases eq_or_ne a [] with rfl | ha
  · simp [Path.endsBefore]
  · unfold Path.endsBefore
    have h0 : ¬ (a.length = 0) := by simpa [List.length_eq_zero] using ha
    rw [if_neg h0]
    by_cases h1 : b.length ≤ a.length - 1
    · rw [if_pos h1]
      constructor
      · intro h; exact (Bool.false_ne_true h).elim
      · rintro ⟨-, h, -, -⟩; omega
    · rw [if_neg h1]
      simp only [Bool.and_eq_true, beq_iff_eq, decide_eq_true_iff]
      constructor
      · rintro ⟨ht, hd⟩
        exact ⟨ha, by omega, ht, hd⟩
      · rintro ⟨-, -, ht, hd⟩
        exact ⟨ht, hd⟩

theorem isSibling_iff (a b : Path) :
    Path.isSibling a b = true ↔
      a.length = b.length ∧ a.getLastD 0 ≠ b.getLastD 0 ∧ a.dropLast = b.dropLast := by
  unfold Path.isSibling
  simp [Bool.and_eq_true, beq_iff_eq, bne_iff_ne, and_assoc]

theorem isSibling_comm (a b : Path) : Path.isSibling a b = Path.isSibling b a := by
  rw [Bool.eq_iff_iff, isSibling_iff, isSibling_iff]
  constructor
  · rintro ⟨h1, h2, h3⟩; exact ⟨h1.symm, Ne.symm h2, h3.symm⟩
  · rintro ⟨h1, h2, h3⟩; exact ⟨h1.symm, Ne.symm h2, h3.symm⟩

theorem ne_of_isSibling {a b : Path} (h : Path.isSibling a b = true) : a ≠ b := by
  rw [isSibling_iff] at h
  rintro rfl
  exact h.2.1 rfl

theorem isSibling_eq_false_of_length_ne {a b : Path} (h : a.length ≠ b.length) :
    Path.isSibling a b = false := by
  unfold Path.isSibling
  simp [h]

/-- Decompose a non-empty path into its `dropLast` and its last index. -/
theorem eq_dropLast_concat (p : Path) (h : p ≠ []) :
    p = p.dropLast ++ [p.getLastD 0] := (dropLast_append_getLastD p h).symm

theorem length_dropLast_of_ne (p : Path) (h : p ≠ []) :
    p.dropLast.length = p.length - 1 := by
  simp [List.length_dropLast]

theorem nextList_length (p : Path) (h : p ≠ []) :
    (nextList p).length = p.length := by
  have hl : 1 ≤ p.length := List.length_pos.mpr h
  simp [nextList, List.length_dropLast]
  omega

theorem next_eq_some (p : Path) (h : p ≠ []) : Path.next p = some (nextList p) := by
  unfold Path.next nextList
  rw [if_neg (by simpa [List.isEmpty_iff] using h)]

theorem take_concat_of_le (q : List Nat) (x : Nat) (k : Nat) (h : k ≤ q.length) :
    (q ++ [x]).take k = q.take k := List.take_append_of_le_length h

theorem getD_concat_lt (q : List Nat) (x : Nat) (k : Nat) (h : k < q.length) :
    (q ++ [x]).getD k 0 = q.getD k 0 := by
  induction q generalizing k with
  | nil => simp at h
  | cons y ys ih =>
    cases k with
    | zero => rfl
    | succ m => simpa using ih m (by simpa using h)

theorem getD_concat_last (q : List Nat) (x : Nat) :
    (q ++ [x]).getD q.length 0 = x := by
  induction q with
  | nil => rfl
  | cons y ys ih => simpa using ih

theorem take_length_concat (q : List Nat) (x : Nat) :
    (q ++ [x]).take q.length = q := by
  simpa using take_concat_of_le q x q.length le_rfl

theorem nextList_take (p : Path) (h : p ≠ []) (k : Nat) (hk : k ≤ p.length - 1) :
    (nextList p).take k = p.take k := by
  conv_rhs => rw [eq_dropLast_concat p h]
  unfold nextList
  rw [take_concat_of_le _ _ _ (by rw [length_dropLast_of_ne p h]; omega),
    take_concat_of_le _ _ _ (by rw [length_dropLast_of_ne p h]; omega)]

theorem nextList_getD_lt (p : Path) (h : p ≠ []) (k : Nat) (hk : k < p.length - 1) :
    (nextList p).getD k 0 = p.getD k 0 := by
  conv_rhs => rw [eq_dropLast_concat p h]
  unfold nextList
  rw [getD_concat_lt _ _ _ (by rw [length_dropLast_of_ne p h]; omega),
    getD_concat_lt _ _ _ (by rw [length_dropLast_of_ne p h]; omega)]

theorem nextList_getD_last (p : Path) (h : p ≠ []) :
    (nextList p).getD (p.length - 1) 0 = p.getD (p.length - 1) 0 + 1 := by
  have h1 := length_dropLast_of_ne p h
  unfold nextList
  rw [← h1, getD_concat_last, getLastD_eq_getD, h1]

theorem nextList_ne (p : Path) (h : p ≠ []) : nextList p ≠ p := by
  intro he
  have h1 := nextList_getD_last p h
  rw [he] at h1
  omega

theorem endsBefore_nextList (p : Path) (h : p ≠ []) :
    Path.endsBefore p (nextList p) = true := by
  rw [endsBefore_iff]
  refine ⟨h, ?_, ?_, ?_⟩
  · rw [nextList_length p h]
    have := List.length_pos.mpr h
    omega
  · exact (nextList_take p h _ le_rfl).symm
  · rw [nextList_getD_last p h]
    omega

theorem modifyIdx_nextList (p : Path) (h : p ≠ []) :
    modifyIdx (nextList p) (p.length - 1) (· - 1) = p := by
  have h1 := length_dropLast_of_ne p h
  unfold nextList
  rw [← h1, modifyIdx_append_last, Nat.add_sub_cancel, dropLast_append_getLastD p h]

theorem isAncestor_nextList (p : Path) (h : p ≠ []) :
    Path.isAncestor p (nextList p) = false := by
  rw [Bool.eq_false_iff]
  intro hc
  rw [isAncestor_iff] at hc
  rw [nextList_length p h] at hc
  omega

theorem isSibling_nextList (p : Path) (h : p ≠ []) :
    Path.isSibling p (nextList p) = true := by
  rw [isSibling_iff]
  refine ⟨(nextList_length p h).symm, ?_, ?_⟩
  · rw [getLastD_eq_getD, getLastD_eq_getD, nextList_length p h, nextList_getD_last p h]
    omega
  · unfold nextList
    rw [List.dropLast_concat]

/-- Two non-empty paths of equal length that agree below the last index
and at the last index are equal. -/
theorem eq_of_parts {a b : Path} (ha : a ≠ []) (hb : b ≠ [])
    (hl : a.length = b.length)
    (ht : a.take (a.length - 1) = b.take (a.length - 1))
    (hg : a.getD (a.length - 1) 0 = b.getD (a.length - 1) 0) : a = b := by
  have h1 := length_dropLast_of_ne a ha
  have h2 := length_dropLast_of_ne b hb
  have hta : a.take (a.length - 1) = a.dropLast := (List.dropLast_eq_take a).symm
  have htb : b.take (a.length - 1) = b.dropLast := by
    rw [hl]; exact (List.dropLast_eq_take b).symm
  have hga : a.getD (a.length - 1) 0 = a.getLastD 0 := (getLastD_eq_getD a).symm
  have hgb : b.getD (a.length - 1) 0 = b.getLastD 0 := by
    rw [hl] at hg ⊢
    exact (getLastD_eq_getD b).symm
  rw [eq_dropLast_concat a ha, eq_dropLast_concat b hb, ← hta, ← htb, ht]
  rw [hta, htb] at ht
  rw [← hga, ← hgb, hg]

theorem cmp_of_diverge (i : Nat) :
    ∀ (a b : Path), a.take i = b.take i → i < a.length → i < b.length →
      a.getD i 0 ≠ b.getD i 0 →
      Path.cmp a b = compare (a.getD i 0) (b.getD i 0) := by
  induction i with
  | zero =>
    intro a b _ hla hlb hne
    cases a with
    | nil => simp at hla
    | cons x as_ =>
      cases b with
      | nil => simp at hlb
      | cons y bs =>
        simp only [List.getD_cons_zero] at hne ⊢
        simp only [Path.cmp]
        cases hcc : compare x y with
        | eq => exact absurd (Nat.compare_eq_eq.mp hcc) hne
        | lt => rfl
        | gt => rfl
  | succ j ih =>
    intro a b ht hla hlb hne
    cases a with
    | nil => simp at hla
    | cons x as_ =>
      cases b with
      | nil => simp at hlb
      | cons y bs =>
        simp only [List.take_succ_cons, List.cons.injEq] at ht
        obtain ⟨rfl, ht'⟩ := ht
        simp only [List.getD_cons_succ] at hne ⊢
        simp only [Path.cmp, Nat.compare_eq_eq.mpr rfl]
        exact ih as_ bs ht' (by simpa using hla) (by simpa using hlb) hne

theorem getD_take_lt (l : List Nat) (k j : Nat) (h : j < k) :
    (l.take k).getD j 0 = l.getD j 0 := by
  induction l generalizing k j with
  | nil => simp
  | cons x xs ih =>
    cases k with
    | zero => omega
    | succ m =>
      cases j with
      | zero => rfl
      | succ i => simpa using ih m i (by omega)

theorem modifyIdx_inc_dec (l : List Nat) (i : Nat) :
    modifyIdx (modifyIdx l i (· + 1)) i (· - 1) = l := by
  rw [modifyIdx_modifyIdx]
  exact modifyIdx_eq_self _ _ _ (by omega)

theorem modifyIdx_dec_inc (l : List Nat) (i : Nat) (h : 1 ≤ l.getD i 0) :
    modifyIdx (modifyIdx l i (· - 1)) i (· + 1) = l := by
  rw [modifyIdx_modifyIdx]
  exact modifyIdx_eq_self _ _ _ (by omega)

theorem modifyIdx_ne_nil (l : List Nat) (i : Nat) (f : Nat → Nat) (h : l ≠ []) :
    modifyIdx l i f ≠ [] := by
  intro hc
  have := congrArg List.length hc
  rw [modifyIdx_length] at this
  exact h (List.length_eq_zero.mp (by simpa using this))

/-! ### Evaluating `Path::transform` and `Operation::inverse` on a move -/

/-- Evaluation of `Path::transform` at the moved path itself: the first `MoveNode`
branch rebases it onto `new_path` (adjusted when the source removal
shifts the destination). -/
theorem transform_move_self (P N : Path) (hP : P ≠ []) (hPN : P ≠ N) :
    Path.transform P (.moveNode P N) .forward =
      some (if Path.endsBefore P N && decide (P.length < N.length) then
              modifyIdx N (P.length - 1) (· - 1)
            else N) := by
  have hE : P.isEmpty = false := by cases P with
    | nil => exact absurd rfl hP
    | cons _ _ => rfl
  have h0 : (P == N) = false := beq_eq_false_iff_ne.mpr hPN
  simp [Path.transform, hE, h0]

/-- Evaluation of `Path::transform` at the sibling immediately after the moved path. -/
theorem transform_move_next (P N : Path) (hP : P ≠ []) (hPN : P ≠ N)
    (hsib : Path.isSibling P N = false) :
    Path.transform (nextList P) (.moveNode P N) .forward =
      (if Path.endsBefore N (nextList P) || Path.isAncestor N (nextList P) then
        (if N.isEmpty then Option.none
         else some (modifyIdx P (N.length - 1) (· + 1)))
       else some P) := by
  have hPn : nextList P ≠ [] := by
    unfold nextList
    simp
  have hE : (nextList P).isEmpty = false := by
    cases hth : nextList P with
    | nil => exact absurd hth hPn
    | cons _ _ => rfl
  have h0 : (P == nextList P) = false :=
    beq_eq_false_iff_ne.mpr (fun h => nextList_ne P hP h.symm)
  have hanc : Path.isAncestor P (nextList P) = false := isAncestor_nextList P hP
  have hNPn : (N == nextList P) = false := by
    rw [beq_eq_false_iff_ne]
    intro h
    have hs := isSibling_nextList P hP
    rw [← h] at hs
    rw [hs] at hsib
    exact Bool.noConfusion hsib
  have hEBP : Path.endsBefore P (nextList P) = true := endsBefore_nextList P hP
  have hmod : modifyIdx (nextList P) (P.length - 1) (· - 1) = P := modifyIdx_nextList P hP
  have hMN : (P == N) = false := beq_eq_false_iff_ne.mpr hPN
  by_cases h3a : Path.endsBefore N (nextList P) = true
  · simp [Path.transform, hE, h0, hanc, hNPn, hsib, hEBP, hmod, hMN, h3a]
  · by_cases h3b : Path.isAncestor N (nextList P) = true
    · simp [Path.transform, hE, h0, hanc, hNPn, hsib, hEBP, hmod, hMN, h3a, h3b]
    · simp [Path.transform, hE, h0, hanc, hNPn, hsib, hEBP, hmod, hMN, h3a, h3b]

/-- Evaluation of `Operation::inverse` at a non-identity, non-sibling move with a
non-root `new_path`, fully evaluated. -/
theorem inverse_move_eval (P N : Path) (hP : P ≠ []) (hN : N ≠ []) (hPN : P ≠ N)
    (hsib : Path.isSibling P N = false) :
    Operation.inverse (.moveNode P N) =
      some (.moveNode
        (if Path.endsBefore P N && decide (P.length < N.length) then
           modifyIdx N (P.length - 1) (· - 1)
         else N)
        (if Path.endsBefore N (nextList P) || Path.isAncestor N (nextList P) then
           modifyIdx P (N.length - 1) (· + 1)
         else P)) := by
  have h0 : (P == N) = false := beq_eq_false_iff_ne.mpr hPN
  have hNE : N.isEmpty = false := by cases N with
    | nil => exact absurd rfl hN
    | cons _ _ => rfl
  have t1 := transform_move_self P N hP hPN
  have t2 := next_eq_some P hP
  have t3 := transform_move_next P N hP hPN hsib
  by_cases h3 : (Path.endsBefore N (nextList P) || Path.isAncestor N (nextList P)) = true
  · simp [Operation.inverse, h0, hsib, t1, t2, t3, h3, hNE]
  · simp [Operation.inverse, h0, hsib, t1, t2, t3, h3, hNE]

/-- Shows that `Operation::inverse` panics (out-of-bounds write) when a non-sibling
move targets the root path. -/
theorem inverse_move_nil (P : Path) (hP : P ≠ []) :
    Operation.inverse (.moveNode P []) = Option.none := by
  have hlen : 0 < P.length := List.length_pos.mpr hP
  have hPN : P ≠ [] := hP
  have hsib : Path.isSibling P [] = false :=
    isSibling_eq_false_of_length_ne (by simpa using Nat.pos_iff_ne_zero.mp hlen)
  have h0 : (P == ([] : Path)) = false := beq_eq_false_iff_ne.mpr hP
  have hanc : Path.isAncestor [] (nextList P) = true := by
    rw [isAncestor_iff]
    constructor
    · rw [nextList_length P hP]; simpa using hlen
    · simp
  have t1 := transform_move_self P [] hP hP
  have t2 := next_eq_some P hP
  have t3 := transform_move_next P [] hP hP hsib
  simp [Operation.inverse, h0, hsib, t1, t2, t3, hanc]

/-! ### The branch conditions met by the inverse of an inverse move -/

/-- If neither inner adjustment fired, the reversed move `N → P` does not
decrement its destination either. -/
theorem cond_noDec_rev (P N : Path) (hP : P ≠ []) (hN : N ≠ [])
    (hEBn : Path.endsBefore N (nextList P) = false) :
    ¬(Path.endsBefore N P = true ∧ N.length < P.length) := by
  rintro ⟨hEB, hlt⟩
  have he1 := List.length_pos.mpr hN
  rw [endsBefore_iff] at hEB
  obtain ⟨-, hlen, ht, hg⟩ := hEB
  have : Path.endsBefore N (nextList P) = true := by
    rw [endsBefore_iff]
    refine ⟨hN, ?_, ?_, ?_⟩
    · rw [nextList_length P hP]; omega
    · rw [nextList_take P hP _ (by omega)]; exact ht
    · rw [nextList_getD_lt P hP _ (by omega)]; exact hg
  rw [this] at hEBn
  exact Bool.noConfusion hEBn

/-- If neither inner adjustment fired, the reversed move `N → P` does not
shift its `path.next()` either. -/
theorem cond_noB3_rev (P N : Path) (hP : P ≠ []) (hN : N ≠ []) (hPN : P ≠ N)
    (hsib : Path.isSibling P N = false) (hanc : Path.isAncestor P N = false)
    (hnoDec : ¬(Path.endsBefore P N = true ∧ P.length < N.length)) :
    Path.endsBefore P (nextList N) = false ∧ Path.isAncestor P (nextList N) = false := by
  have hd1 := List.length_pos.mpr hP
  have he1 := List.length_pos.mpr hN
  constructor
  · rw [Bool.eq_false_iff]
    intro hEB
    rw [endsBefore_iff] at hEB
    obtain ⟨-, hlen, ht, hg⟩ := hEB
    rw [nextList_length N hN] at hlen
    rcases Nat.lt_or_ge (P.length - 1) (N.length - 1) with hc | hc
    · rw [nextList_take N hN _ (by omega)] at ht
      rw [nextList_getD_lt N hN _ (by omega)] at hg
      exact hnoDec ⟨endsBefore_iff P N |>.mpr ⟨hP, by omega, ht, hg⟩, by omega⟩
    · have hde : P.length = N.length := by omega
      rw [nextList_take N hN _ (by omega)] at ht
      rw [(by omega : P.length - 1 = N.length - 1), nextList_getD_last N hN] at hg
      rw [(by omega : P.length - 1 = N.length - 1)] at ht
      rcases Nat.lt_or_ge (P.getD (N.length - 1) 0) (N.getD (N.length - 1) 0) with hc2 | hc2
      · have : Path.isSibling P N = true := by
          rw [isSibling_iff]
          refine ⟨hde, ?_, ?_⟩
          · rw [getLastD_eq_getD, getLastD_eq_getD, hde]
            omega
          · rw [List.dropLast_eq_take, List.dropLast_eq_take, hde]
            exact ht
        rw [this] at hsib
        exact Bool.noConfusion hsib
      · have : P = N := by
          refine eq_of_parts hP hN hde ?_ ?_
          · rw [(by omega : P.length - 1 = N.length - 1)]; exact ht
          · rw [(by omega : P.length - 1 = N.length - 1)]; omega
        exact hPN this
  · rw [Bool.eq_false_iff]
    intro hA
    rw [isAncestor_iff] at hA
    rw [nextList_length N hN] at hA
    obtain ⟨hlt, he⟩ := hA
    rw [nextList_take N hN _ (by omega)] at he
    have : Path.isAncestor P N = true := isAncestor_iff P N |>.mpr ⟨hlt, he⟩
    rw [this] at hanc
    exact Bool.noConfusion hanc

/-- If the `path.next()` transform fired, the destination is strictly
shallower than the source. -/
theorem cond_b3_shallow (P N : Path) (hP : P ≠ []) (hN : N ≠ []) (hPN : P ≠ N)
    (hsib : Path.isSibling P N = false)
    (hb3 : (Path.endsBefore N (nextList P) || Path.isAncestor N (nextList P)) = true) :
    N.length < P.length := by
  have hd1 := List.length_pos.mpr hP
  have he1 := List.length_pos.mpr hN
  cases hEB : Path.endsBefore N (nextList P) with
  | true =>
    rw [endsBefore_iff] at hEB
    obtain ⟨-, hlen, ht, hg⟩ := hEB
    rw [nextList_length P hP] at hlen
    by_contra hc
    have hde : N.length = P.length := by omega
    rw [nextList_take P hP _ (by omega), (by omega : N.length - 1 = P.length - 1)] at ht
    rw [(by omega : N.length - 1 = P.length - 1), nextList_getD_last P hP] at hg
    rcases Nat.lt_or_ge (N.getD (P.length - 1) 0) (P.getD (P.length - 1) 0) with hc2 | hc2
    · have : Path.isSibling P N = true := by
        rw [isSibling_iff]
        refine ⟨hde.symm, ?_, ?_⟩
        · rw [getLastD_eq_getD, getLastD_eq_getD, hde]
          omega
        · rw [List.dropLast_eq_take, List.dropLast_eq_take, hde]
          exact ht.symm
      rw [this] at hsib
      exact Bool.noConfusion hsib
    · have : N = P := by
        refine eq_of_parts hN hP hde ?_ ?_
        · rw [(by omega : N.length - 1 = P.length - 1)]; exact ht
        · rw [(by omega : N.length - 1 = P.length - 1)]; omega
      exact hPN this.symm
  | false =>
    rw [hEB] at hb3
    simp only [Bool.false_or] at hb3
    rw [isAncestor_iff] at hb3
    rw [nextList_length P hP] at hb3
    exact hb3.1

/-- If the `path.next()` transform fired then, after incrementing `P` at
the destination depth, the destination ends before it. -/
theorem cond_b3_endsBefore (P N : Path) (hP : P ≠ []) (hN : N ≠ []) (hPN : P ≠ N)
    (hsib : Path.isSibling P N = false)
    (hb3 : (Path.endsBefore N (nextList P) || Path.isAncestor N (nextList P)) = true) :
    Path.endsBefore N (modifyIdx P (N.length - 1) (· + 1)) = true := by
  have hd1 := List.length_pos.mpr hP
  have he1 := List.length_pos.mpr hN
  have hlt := cond_b3_shallow P N hP hN hPN hsib hb3
  have hmlen : (modifyIdx P (N.length - 1) (· + 1)).length = P.length :=
    modifyIdx_length _ _ _
  have htake : (modifyIdx P (N.length - 1) (· + 1)).take (N.length - 1) =
      P.take (N.length - 1) := modifyIdx_take _ _ _ _ le_rfl
  have hget : (modifyIdx P (N.length - 1) (· + 1)).getD (N.length - 1) 0 =
      P.getD (N.length - 1) 0 + 1 := modifyIdx_getD _ _ _ (by omega)
  rw [endsBefore_iff]
  refine ⟨hN, by omega, ?_, ?_⟩
  · rw [htake]
    cases hEB : Path.endsBefore N (nextList P) with
    | true =>
      rw [endsBefore_iff] at hEB
      obtain ⟨-, -, ht, -⟩ := hEB
      rw [nextList_take P hP _ (by omega)] at ht
      exact ht
    | false =>
      rw [hEB] at hb3
      simp only [Bool.false_or] at hb3
      rw [isAncestor_iff] at hb3
      obtain ⟨-, he⟩ := hb3
      have h1 := congrArg (List.take (N.length - 1)) he
      rw [List.take_take, (by omega : min (N.length - 1) N.length = N.length - 1),
        nextList_take P hP _ (by omega)] at h1
      exact h1
  · rw [hget]
    cases hEB : Path.endsBefore N (nextList P) with
    | true =>
      rw [endsBefore_iff] at hEB
      obtain ⟨-, -, -, hg⟩ := hEB
      rw [nextList_getD_lt P hP _ (by omega)] at hg
      omega
    | false =>
      rw [hEB] at hb3
      simp only [Bool.false_or] at hb3
      rw [isAncestor_iff] at hb3
      obtain ⟨-, he⟩ := hb3
      have h1 := congrArg (fun l : List Nat => l.getD (N.length - 1) 0) he
      simp only [] at h1
      rw [getD_take_lt _ _ _ (by omega), nextList_getD_lt P hP _ (by omega)] at h1
      omega

/-- If the destination is deeper and ends after the source (the inner
decrement fired), then the source ends before, or is an ancestor of, the
`next` of the decremented destination. -/
theorem cond_dec_b3 (P N : Path) (hP : P ≠ []) (hN : N ≠ [])
    (hEB : Path.endsBefore P N = true) (hlt : P.length < N.length) :
    (Path.endsBefore P (nextList (modifyIdx N (P.length - 1) (· - 1))) ||
      Path.isAncestor P (nextList (modifyIdx N (P.length - 1) (· - 1)))) = true := by
  have hd1 := List.length_pos.mpr hP
  have he1 := List.length_pos.mpr hN
  set M := modifyIdx N (P.length - 1) (· - 1) with hM
  have hMnil : M ≠ [] := modifyIdx_ne_nil _ _ _ hN
  have hMlen : M.length = N.length := modifyIdx_length _ _ _
  rw [endsBefore_iff] at hEB
  obtain ⟨-, -, ht, hg⟩ := hEB
  have htn : (nextList M).take (P.length - 1) = P.take (P.length - 1) := by
    rw [nextList_take M hMnil _ (by omega), hM, modifyIdx_take _ _ _ _ le_rfl, ← ht]
  have hgn : (nextList M).getD (P.length - 1) 0 = N.getD (P.length - 1) 0 - 1 := by
    rw [nextList_getD_lt M hMnil _ (by omega), hM, modifyIdx_getD _ _ _ (by omega)]
  have hnlen : (nextList M).length = N.length := by rw [nextList_length M hMnil, hMlen]
  rcases Nat.lt_or_ge (P.getD (P.length - 1) 0) (N.getD (P.length - 1) 0 - 1) with hc | hc
  · rw [Bool.or_eq_true_iff]
    left
    rw [endsBefore_iff]
    exact ⟨hP, by omega, htn.symm, by omega⟩
  · rw [Bool.or_eq_true_iff]
    right
    rw [isAncestor_iff]
    refine ⟨by omega, ?_⟩
    have hlen2 : ((nextList M).take P.length).length = P.length := by
      rw [List.length_take]
      omega
    refine eq_of_parts hP ?_ hlen2.symm ?_ ?_
    · intro hc2
      rw [hc2] at hlen2
      simp at hlen2
      omega
    · rw [List.take_take, (by omega : min (P.length - 1) P.length = P.length - 1), htn]
    · rw [getD_take_lt _ _ _ (by omega), hgn]
      omega

theorem isEmpty_false_of_ne (p : Path) (h : p ≠ []) : p.isEmpty = false := by
  cases p with
  | nil => exact absurd rfl h
  | cons _ _ => rfl

theorem next_previous (p pp : Path) (h : Path.previous p = some pp) :
    Path.next pp = some p := by
  unfold Path.previous at h
  by_cases hp : p.isEmpty
  · rw [if_pos hp] at h
    exact Option.noConfusion h
  · have hpne : p ≠ [] := by
      cases p with
      | nil => exact absurd rfl hp
      | cons _ _ => simp
    rw [if_neg hp] at h
    cases hg : p.getLastD 0 with
    | zero =>
      rw [hg] at h
      exact Option.noConfusion h
    | succ k =>
      rw [hg] at h
      rw [Option.some.injEq] at h
      subst h
      unfold Path.next
      rw [if_neg (by simp)]
      rw [Option.some.injEq, List.dropLast_concat, List.getLastD_concat]
      rw [← hg, dropLast_append_getLastD p hpne]

theorem previous_next (p pn : Path) (h : Path.next p = some pn) :
    Path.previous pn = some p := by
  unfold Path.next at h
  by_cases hp : p.isEmpty
  · rw [if_pos hp] at h
    exact Option.noConfusion h
  · have hpne : p ≠ [] := by
      cases p with
      | nil => exact absurd rfl hp
      | cons _ _ => simp
    rw [if_neg hp] at h
    rw [Option.some.injEq] at h
    subst h
    unfold Path.previous
    rw [if_neg (by simp)]
    simp only [List.getLastD_concat, List.dropLast_concat]
    show some (p.dropLast ++ [p.getLastD 0]) = some p
    rw [dropLast_append_getLastD p hpne]

/-- C1, amended: `inverse(inverse(op)) == op` for every variant wherever
the inverse is defined (for `MergeNode` the path has a previous sibling
index, for `SplitNode` the path is non-root so `next` exists, for a
non-sibling `MoveNode` both paths are non-root), with one additional
restriction the counterexample forces on `MoveNode`: its source `path`
must not be a proper ancestor of `new_path` (a move into the moved
node's own subtree, which no valid document supports, breaks the
involution). -/
theorem inverse_involutive (op op' : Operation)
    (h : Operation.inverse op = some op')
    (hmove : ∀ P N, op = .moveNode P N → Path.isAncestor P N = false) :
    Operation.inverse op' = some op := by
  cases op with
  | insertNode node path =>
    simp only [Operation.inverse, Option.some.injEq] at h
    subst h
    rfl
  | insertText path offset text =>
    simp only [Operation.inverse, Option.some.injEq] at h
    subst h
    rfl
  | removeNode path node =>
    simp only [Operation.inverse, Option.some.injEq] at h
    subst h
    rfl
  | removeText path offset text =>
    simp only [Operation.inverse, Option.some.injEq] at h
    subst h
    rfl
  | setNode path properties newProperties =>
    simp only [Operation.inverse, Option.some.injEq] at h
    subst h
    rfl
  | setSelection path properties newProperties =>
    cases properties with
    | none =>
      simp only [Operation.inverse, Option.some.injEq] at h
      subst h
      cases newProperties with
      | none => rfl
      | some pr => rfl
    | some pr =>
      cases newProperties with
      | none =>
        simp only [Operation.inverse, Option.some.injEq] at h
        subst h
        rfl
      | some np =>
        simp only [Operation.inverse, Option.some.injEq] at h
        subst h
        rfl
  | mergeNode path position properties =>
    simp only [Operation.inverse] at h
    cases hprev : Path.previous path with
    | none =>
      rw [hprev] at h
      exact Option.noConfusion h
    | some pp =>
      rw [hprev] at h
      simp only [Option.map_some', Option.some.injEq] at h
      subst h
      simp only [Operation.inverse]
      rw [next_previous path pp hprev]
      rfl
  | splitNode path position properties =>
    simp only [Operation.inverse] at h
    cases hnext : Path.next path with
    | none =>
      rw [hnext] at h
      exact Option.noConfusion h
    | some pn =>
      rw [hnext] at h
      simp only [Option.map_some', Option.some.injEq] at h
      subst h
      simp only [Operation.inverse]
      rw [previous_next path pn hnext]
      rfl
  | moveNode P N =>
    have hanc := hmove P N rfl
    by_cases heq : P = N
    · subst heq
      simp only [Operation.inverse, beq_self_eq_true, if_true] at h ⊢
      rw [Option.some.injEq] at h
      subst h
      simp [Operation.inverse]
    · have hPNbeq : (P == N) = false := beq_eq_false_iff_ne.mpr heq
      by_cases hsib : Path.isSibling P N = true
      · simp only [Operation.inverse, hPNbeq, Bool.false_eq_true, if_false, hsib,
          if_true, Option.some.injEq] at h
        subst h
        have hs2 : Path.isSibling N P = true := by rw [isSibling_comm]; exact hsib
        have hNPbeq : (N == P) = false := beq_eq_false_iff_ne.mpr (Ne.symm heq)
        simp only [Operation.inverse, hNPbeq, Bool.false_eq_true, if_false, hs2, if_true]
      · have hsibF : Path.isSibling P N = false := Bool.eq_false_iff.mpr hsib
        rcases eq_or_ne P [] with rfl | hP
        · simp [Operation.inverse, hPNbeq, hsibF, Path.transform, Path.next] at h
        rcases eq_or_ne N [] with rfl | hN
        · rw [inverse_move_nil P hP] at h
          exact Option.noConfusion h
        rw [inverse_move_eval P N hP hN heq hsibF, Option.some.injEq] at h
        subst h
        by_cases hb3 : (Path.endsBefore N (nextList P) || Path.isAncestor N (nextList P)) = true
        · -- the move's `path.next()` was shifted: destination shallower than source
          have hlt := cond_b3_shallow P N hP hN heq hsibF hb3
          have hdecF : (Path.endsBefore P N && decide (P.length < N.length)) = false := by
            have hd : decide (P.length < N.length) = false := by
              rw [decide_eq_false_iff_not]
              omega
            rw [hd, Bool.and_false]
          rw [if_neg (by rw [hdecF]; exact Bool.false_ne_true), if_pos hb3]
          set Ps := modifyIdx P (N.length - 1) (· + 1) with hPs
          have hPslen : Ps.length = P.length := modifyIdx_length _ _ _
          have hPsnil : Ps ≠ [] := modifyIdx_ne_nil _ _ _ hP
          have hNPs : N ≠ Ps := fun hc => by
            rw [hc, hPslen] at hlt
            omega
          have hsib2 : Path.isSibling N Ps = false :=
            isSibling_eq_false_of_length_ne (by rw [hPslen]; omega)
          rw [inverse_move_eval N Ps hN hPsnil hNPs hsib2]
          have hEB2 := cond_b3_endsBefore P N hP hN heq hsibF hb3
          rw [← hPs] at hEB2
          have hco1 : (Path.endsBefore N Ps && decide (N.length < Ps.length)) = true := by
            rw [hEB2, Bool.true_and, decide_eq_true_eq, hPslen]
            exact hlt
          have hco2 : (Path.endsBefore Ps (nextList N) || Path.isAncestor Ps (nextList N)) = false := by
            have hA : Path.endsBefore Ps (nextList N) = false := by
              rw [Bool.eq_false_iff]
              intro hc
              rw [endsBefore_iff] at hc
              obtain ⟨-, hlen, -, -⟩ := hc
              rw [hPslen, nextList_length N hN] at hlen
              omega
            have hB : Path.isAncestor Ps (nextList N) = false := by
              rw [Bool.eq_false_iff]
              intro hc
              rw [isAncestor_iff] at hc
              obtain ⟨hl, -⟩ := hc
              rw [hPslen, nextList_length N hN] at hl
              omega
            rw [hA, hB]
            rfl
          rw [if_pos hco1, if_neg (by rw [hco2]; exact Bool.false_ne_true)]
          rw [hPs, modifyIdx_inc_dec]
        · rw [if_neg hb3]
          by_cases hdec : (Path.endsBefore P N && decide (P.length < N.length)) = true
          · -- the inner decrement fired: destination deeper than source
            simp only [Bool.and_eq_true, decide_eq_true_eq] at hdec
            obtain ⟨hEB, hlt⟩ := hdec
            rw [if_pos (by rw [hEB, Bool.true_and, decide_eq_true_eq]; exact hlt)]
            set Ns := modifyIdx N (P.length - 1) (· - 1) with hNs
            have hNslen : Ns.length = N.length := modifyIdx_length _ _ _
            have hNsnil : Ns ≠ [] := modifyIdx_ne_nil _ _ _ hN
            have hNsP : Ns ≠ P := fun hc => by
              have := congrArg List.length hc
              rw [hNslen] at this
              omega
            have hsib3 : Path.isSibling Ns P = false :=
              isSibling_eq_false_of_length_ne (by rw [hNslen]; omega)
            rw [inverse_move_eval Ns P hNsnil hP hNsP hsib3]
            have hc1 : (Path.endsBefore Ns P && decide (Ns.length < P.length)) = false := by
              have hd : decide (Ns.length < P.length) = false := by
                rw [decide_eq_false_iff_not, hNslen]
                omega
              rw [hd, Bool.and_false]
            have hc2 := cond_dec_b3 P N hP hN hEB hlt
            rw [← hNs] at hc2
            rw [if_neg (by rw [hc1]; exact Bool.false_ne_true), if_pos hc2]
            have hback : modifyIdx Ns (P.length - 1) (· + 1) = N := by
              rw [hNs]
              apply modifyIdx_dec_inc
              rw [endsBefore_iff] at hEB
              obtain ⟨-, -, -, hg⟩ := hEB
              omega
            rw [hback]
          · -- neither adjustment fired: the inverse is the plain swap
            rw [if_neg hdec]
            have hs2 : Path.isSibling N P = false := by rw [isSibling_comm]; exact hsibF
            rw [inverse_move_eval N P hN hP (Ne.symm heq) hs2]
            have hEBnF : Path.endsBefore N (nextList P) = false := by
              rw [Bool.eq_false_iff]
              intro hc
              exact hb3 (by rw [hc]; rfl)
            have hnoDec : ¬(Path.endsBefore P N = true ∧ P.length < N.length) := by
              rintro ⟨h1, h2⟩
              exact hdec (by rw [h1, Bool.true_and, decide_eq_true_eq]; exact h2)
            have hc1 : (Path.endsBefore N P && decide (N.length < P.length)) = false := by
              cases hE : Path.endsBefore N P with
              | false => rw [Bool.false_and]
              | true =>
                have := cond_noDec_rev P N hP hN hEBnF
                rw [Bool.true_and, decide_eq_false_iff_not]
                intro hcc
                exact this ⟨hE, hcc⟩
            obtain ⟨hc2a, hc2b⟩ := cond_noB3_rev P N hP hN heq hsibF hanc hnoDec
            rw [if_neg (by rw [hc1]; exact Bool.false_ne_true),
              if_neg (by rw [hc2a, hc2b]; simp)]

theorem inverse_involutive_witness :
    Operation.inverse (.moveNode [1, 0, 0] [0, 2]) = some (.moveNode [0, 2] [1, 0, 0]) :=
  inverse_involutive (.moveNode [0, 2] [1, 0, 0]) (.moveNode [1, 0, 0] [0, 2])
    (by rfl)
    (by intro P N hPN; injection hPN with h1 h2; subst h1; subst h2; decide)

/-! ### Claim theorems for the path algebra -/

/-- C8: the total comparison of `impl Ord for Path` returns `Equal` exactly
when one of the two paths is a prefix of the other (equality included, so
every path compares equal to each of its ancestors and descendants), and
two paths that diverge at some depth `i` compare by the first differing
index. -/
theorem path_cmp_eq_iff_same_line (a b : Path) :
    (Path.cmp a b = .eq ↔ a = b.take a.length ∨ b = a.take b.length) ∧
    (∀ i, a.take i = b.take i → i < a.length → i < b.length →
      a.getD i 0 ≠ b.getD i 0 →
      Path.cmp a b = compare (a.getD i 0) (b.getD i 0)) :=
  ⟨cmp_eq_iff a b, fun i ht hla hlb hne => cmp_of_diverge i a b ht hla hlb hne⟩

theorem path_cmp_eq_iff_same_line_witness :
    Path.cmp [0, 1] [0] = .eq ∧
    Path.cmp [1, 5] [2] = compare (List.getD [1, 5] 0 0) (List.getD [2] 0 0) :=
  ⟨(path_cmp_eq_iff_same_line [0, 1] [0]).1.mpr (Or.inr (by decide)),
   (path_cmp_eq_iff_same_line [1, 5] [2]).2 0 (by decide) (by decide) (by decide) (by decide)⟩

/-- C9, counterexample: `ends_before` can return `true` on paths of
different lengths — `ends_before([0], [1, 2])` is `true` (it is even one
of the repository's own unit tests), refuting the claim that both
`ends_before` and `ends_after` return `false` whenever the lengths
differ; `ends_after([1], [0, 2])` is likewise `true`. -/
theorem endsBefore_true_on_shorter :
    Path.endsBefore [0] [1, 2] = true ∧
    Path.endsAfter [1] [0, 2] = some true ∧
    ([0] : Path).length ≠ ([1, 2] : Path).length := by
  refine ⟨by decide, by decide, by decide⟩

/-- C9, amended: when `a` is longer than `b`, `ends_before(a, b)` returns
`false`; `ends_after(a, b)` returns `false` when `len(a) > len(b) + 1`,
while at `len(a) == len(b) + 1` its read `b[len(a) - 1]` is out of bounds
and the call panics instead of returning.  (When `a` is the shorter path
both predicates may return `true`: they only require the common parent
depth `len(a) - 1` to exist in `b`.) -/
theorem endsBefore_after_longer_false (a b : Path) :
    (b.length < a.length → Path.endsBefore a b = false) ∧
    (b.length + 1 < a.length → Path.endsAfter a b = some false) ∧
    (a.length = b.length + 1 → Path.endsAfter a b = Option.none) := by
  refine ⟨fun h => ?_, fun h => ?_, fun h => ?_⟩
  · unfold Path.endsBefore
    rw [if_neg (by omega)]
    simp only []
    rw [if_pos (by omega)]
  · unfold Path.endsAfter
    rw [if_neg (by omega)]
    simp only []
    rw [if_pos (by omega)]
  · unfold Path.endsAfter
    rw [if_neg (by omega)]
    simp only []
    rw [if_neg (by omega), if_pos (by omega)]

theorem endsBefore_after_longer_false_witness :
    Path.endsBefore [1, 2, 3] [0] = false ∧
    Path.endsAfter [1, 2, 3, 4] [0, 0] = some false ∧
    Path.endsAfter [1, 2] [0] = Option.none :=
  ⟨(endsBefore_after_longer_false [1, 2, 3] [0]).1 (by decide),
   (endsBefore_after_longer_false [1, 2, 3, 4] [0, 0]).2.1 (by decide),
   (endsBefore_after_longer_false [1, 2] [0]).2.2 (by decide)⟩

/-- C7: transforming the path `[3,3,3]` under
`MoveNode { path: [3], new_path: [5,1] }` with the default (`Forward`)
affinity yields `[4,1,3,3]`: the path follows the moved ancestor subtree,
and the destination's first index is decremented because removing the
source shifts the destination's sibling index. -/
theorem transform_move_ancestor_concrete :
    Path.transform [3, 3, 3] (.moveNode [3] [5, 1]) .forward = some [4, 1, 3, 3] := by
  decide

/-- C1, counterexample: for the (degenerate) move of a node to a position
inside its own subtree, `MoveNode { path: [0], new_path: [0,0] }`, both
inverses are defined yet `inverse(inverse(op))` is
`MoveNode { path: [0], new_path: [1,0] }`, not `op`. -/
theorem inverse_inverse_ne_for_move_into_subtree :
    Operation.inverse (.moveNode [0] [0, 0]) = some (.moveNode [0, 0] [0]) ∧
    Operation.inverse (.moveNode [0, 0] [0]) = some (.moveNode [0] [1, 0]) ∧
    Operation.moveNode [0] [1, 0] ≠ Operation.moveNode [0] [0, 0] := by
  refine ⟨rfl, rfl, fun h => ?_⟩
  injection h with h1 h2
  exact absurd h2 (by decide)

/-! ### Claim theorems: iterator, point, range -/

/-- C2 (code bug): collecting `nodes()` over the five-node document
`Editor{ Element{ Text("a") }, Element{ Text("b") } }` stops after three
entries: stepping from the already-visited first element to its next
sibling, `next()` returns its `out`, which is `None` for a visited path,
and a `None` ends iteration for `collect`.  The claim (and the
repository's own `nodes_multiple_elements` test) expects all `k = 5`
entries in pre-order. -/
theorem nodes_iterator_stops_early :
    runIter 20 (Node.nodes twoElementTree) =
      some [(twoElementTree, []),
            (.element [.text ⟨['a'], 0, []⟩], [0]),
            (.text ⟨['a'], 0, []⟩, [0, 0])] ∧
    Node.count twoElementTree = 5 :=
  ⟨rfl, rfl⟩

/-- C3 (code bug): `Point::transform` under
`RemoveText { path: [0], offset: 1, text: "ab" }` leaves the point
`([0], 5)` unchanged: the source decrements the offset by
`min(opoffset - opoffset, text.len())`, which is always zero, where the
claim (and the spec) require the offset to drop by the two removed
characters, to `([0], 3)`. -/
theorem point_transform_removeText_bug :
    Point.transform ⟨[0], 5⟩ (.removeText [0] 1 ['a', 'b']) .forward = some ⟨[0], 5⟩ ∧
    some (Point.mk [0] 5) ≠ some (Point.mk [0] 3) :=
  ⟨rfl, by decide⟩

/-- C4 (code bug): `Range::transform` computes the focus by transforming
`range.anchor` (range.rs line 121), so for the forward range
`([0],0)..([1],0)` under `InsertText { path: [1], offset: 0, text: "x" }`
with the default `Inward` affinity it returns the collapsed range
`([0],0)..([0],0)`; the claim requires the focus point to be transformed
with the focus affinity, giving `([0],0)..([1],1)`. -/
theorem range_transform_bug :
    Range.transform ⟨⟨[0], 0⟩, ⟨[1], 0⟩⟩ (.insertText [1] 0 ['x']) .inward =
      some ⟨⟨[0], 0⟩, ⟨[0], 0⟩⟩ ∧
    Point.transform ⟨[1], 0⟩ (.insertText [1] 0 ['x']) .backward = some ⟨[1], 1⟩ ∧
    some (Range.mk ⟨[0], 0⟩ ⟨[0], 0⟩) ≠ some (Range.mk ⟨[0], 0⟩ ⟨[1], 1⟩) :=
  ⟨rfl, rfl, by decide⟩

/-- C5 (code bug): `Range::intersection` reads `self.edges(false)` twice
(range.rs lines 62-63) and never consults `another`, so for the disjoint
ranges `([0],0)..([1],0)` and `([5],0)..([6],0)` it returns the first
range instead of the absent value the claim requires. -/
theorem range_intersection_bug :
    Range.intersection ⟨⟨[0], 0⟩, ⟨[1], 0⟩⟩ ⟨⟨[5], 0⟩, ⟨[6], 0⟩⟩ =
      some ⟨⟨[0], 0⟩, ⟨[1], 0⟩⟩ ∧
    some (Range.mk ⟨[0], 0⟩ ⟨[1], 0⟩) ≠ (Option.none : Option Range) :=
  ⟨rfl, by decide⟩

/-! ### Decoration splitting -/

theorem textConcat_cons (t : Text) (ts : List Text) :
    textConcat (t :: ts) = t.string ++ textConcat ts := by
  simp [textConcat]

theorem textConcat_append (a b : List Text) :
    textConcat (a ++ b) = textConcat a ++ textConcat b := by
  simp [textConcat]

theorem take_drop_glue (n : Nat) (l X : List Char) :
    l.take n ++ (l.drop n ++ X) = l ++ X := by
  rw [← List.append_assoc, List.take_append_drop]

theorem decoLeaves_concat (s e : Nat) (dec : List String) :
    ∀ (ls : List Text) (o : Nat) (out : List Text),
      decoLeaves s e dec o ls = some out → textConcat out = textConcat ls := by
  intro ls
  induction ls with
  | nil =>
    intro o out h
    simp only [decoLeaves, Option.some.injEq] at h
    subst h
    rfl
  | cons l ls ih =>
    intro o out h
    simp only [decoLeaves] at h
    repeat' split at h
    all_goals first
      | exact Option.noConfusion h
      | (rw [Option.map_eq_some'] at h
         obtain ⟨r, hr, hout⟩ := h
         subst hout
         simp [textConcat_cons, textConcat_append, take_drop_glue, ih _ _ hr])

theorem mem_union_left' (a : String) (l1 l2 : List String) (h : a ∈ l1) :
    a ∈ l1.union l2 := by
  induction l1 with
  | nil => simp at h
  | cons x xs ih =>
    simp only [List.union, List.foldr] at *
    rcases List.mem_cons.mp h with rfl | h'
    · exact List.mem_insert_self _ _
    · exact List.mem_insert_of_mem (ih h')

theorem decoLeaves_meta (s e : Nat) (dec : List String) (m : List String) (mk0 : Nat) :
    ∀ (ls : List Text) (o : Nat) (out : List Text),
      (∀ l ∈ ls, m ⊆ l.meta ∧ l.marks = mk0) →
      decoLeaves s e dec o ls = some out →
      ∀ l ∈ out, m ⊆ l.meta ∧ l.marks = mk0 := by
  intro ls
  induction ls with
  | nil =>
    intro o out _ h
    simp only [decoLeaves, Option.some.injEq] at h
    subst h
    intro l hl
    simp at hl
  | cons l ls ih =>
    intro o out hls h
    have hl0 := hls l (by simp)
    have hA : m ⊆ l.meta := hl0.1
    have hB : m ⊆ l.meta.union dec := fun y hy => mem_union_left' y _ _ (hA hy)
    have hls' : ∀ x ∈ ls, m ⊆ x.meta ∧ x.marks = mk0 := fun x hx => hls x (by simp [hx])
    simp only [decoLeaves] at h
    repeat' split at h
    all_goals first
      | exact Option.noConfusion h
      | (rw [Option.map_eq_some'] at h
         obtain ⟨r, hr, hout⟩ := h
         subst hout
         have hr' := ih _ _ hls' hr
         intro x hx
         simp only [List.mem_cons, List.mem_append, List.mem_singleton,
           List.not_mem_nil, or_false, false_or] at hx
         repeat' (rcases hx with rfl | hx)
         all_goals first
           | exact hr' _ hx
           | exact ⟨hA, hl0.2⟩
           | exact ⟨hB, hl0.2⟩)

theorem decoFold_concat :
    ∀ (ds : List Decoration) (ls out : List Text),
      decoFold ls ds = some out → textConcat out = textConcat ls := by
  intro ds
  induction ds with
  | nil =>
    intro ls out h
    simp only [decoFold, Option.some.injEq] at h
    subst h
    rfl
  | cons d rest ih =>
    intro ls out h
    obtain ⟨range, dec⟩ := d
    simp only [decoFold] at h
    cases hdl : decoLeaves (range.edges false).1.offset (range.edges false).2.offset dec 0 ls with
    | none =>
      rw [hdl] at h
      exact Option.noConfusion h
    | some nxt =>
      rw [hdl] at h
      calc textConcat out = textConcat nxt := ih _ _ h
        _ = textConcat ls := decoLeaves_concat _ _ _ _ _ _ hdl

theorem decoFold_meta (m : List String) (mk0 : Nat) :
    ∀ (ds : List Decoration) (ls out : List Text),
      (∀ l ∈ ls, m ⊆ l.meta ∧ l.marks = mk0) →
      decoFold ls ds = some out →
      ∀ l ∈ out, m ⊆ l.meta ∧ l.marks = mk0 := by
  intro ds
  induction ds with
  | nil =>
    intro ls out hls h
    simp only [decoFold, Option.some.injEq] at h
    subst h
    exact hls
  | cons d rest ih =>
    intro ls out hls h
    obtain ⟨range, dec⟩ := d
    simp only [decoFold] at h
    cases hdl : decoLeaves (range.edges false).1.offset (range.edges false).2.offset dec 0 ls with
    | none =>
      rw [hdl] at h
      exact Option.noConfusion h
    | some nxt =>
      rw [hdl] at h
      exact ih _ _ (decoLeaves_meta _ _ _ _ _ _ _ _ hls hdl) h

/-- C6: whenever `Text::decorations` produces a list of leaves, their
strings concatenate to the input leaf's string, every produced leaf's
metadata contains the input leaf's metadata, and every produced leaf
carries exactly the input leaf's marks. -/
theorem decorations_partition (t : Text) (ds : List Decoration) (out : List Text)
    (h : Text.decorations t ds = some out) :
    textConcat out = t.string ∧ ∀ l ∈ out, t.meta ⊆ l.meta ∧ l.marks = t.marks := by
  unfold Text.decorations at h
  constructor
  · rw [decoFold_concat ds [t] out h]
    simp [textConcat]
  · exact decoFold_meta t.meta t.marks ds [t] out
      (by intro l hl; rw [List.mem_singleton] at hl; subst hl; exact ⟨fun y hy => hy, rfl⟩)
      h

theorem decorations_partition_witness :
    textConcat [⟨['a'], 2, ["test"]⟩, ⟨['b'], 2, ["test", "decoration"]⟩,
        ⟨['c'], 2, ["test"]⟩] = (Text.mk ['a', 'b', 'c'] 2 ["test"]).string ∧
      ∀ l ∈ [Text.mk ['a'] 2 ["test"], Text.mk ['b'] 2 ["test", "decoration"],
          Text.mk ['c'] 2 ["test"]],
        (Text.mk ['a', 'b', 'c'] 2 ["test"]).meta ⊆ l.meta ∧
          l.marks = (Text.mk ['a', 'b', 'c'] 2 ["test"]).marks :=
  decorations_partition ⟨['a', 'b', 'c'], 2, ["test"]⟩
    [(⟨⟨[0], 1⟩, ⟨[0], 2⟩⟩, ["decoration"])]
    [⟨['a'], 2, ["test"]⟩, ⟨['b'], 2, ["test", "decoration"]⟩, ⟨['c'], 2, ["test"]⟩]
    (by decide)

theorem decoFold_congr {ds1 ds2 : List Decoration}
    (h : List.Forall₂ (fun d1 d2 =>
      (d1.1.edges false).1.offset = (d2.1.edges false).1.offset ∧
      (d1.1.edges false).2.offset = (d2.1.edges false).2.offset ∧
      d1.2 = d2.2) ds1 ds2) :
    ∀ leaves, decoFold leaves ds1 = decoFold leaves ds2 := by
  induction h with
  | nil => intro leaves; rfl
  | @cons d1 d2 tl1 tl2 hd htl ih =>
    intro leaves
    obtain ⟨h1, h2, h3⟩ := hd
    obtain ⟨r1, dec1⟩ := d1
    obtain ⟨r2, dec2⟩ := d2
    simp only at h1 h2 h3
    simp only [decoFold]
    rw [h1, h2, h3]
    cases hdl : decoLeaves (r2.edges false).1.offset (r2.edges false).2.offset dec2 0 leaves with
    | none => rfl
    | some nxt => exact ih nxt

/-- C10: `Text::decorations` never reads a decoration range's paths: two
decoration lists that agree pointwise on the tag set and on the offsets
of the range's start and end edges produce identical results, whatever
paths the ranges' points carry. -/
theorem decorations_reads_only_edge_offsets (t : Text) (ds1 ds2 : List Decoration)
    (h : List.Forall₂ (fun d1 d2 =>
      (d1.1.edges false).1.offset = (d2.1.edges false).1.offset ∧
      (d1.1.edges false).2.offset = (d2.1.edges false).2.offset ∧
      d1.2 = d2.2) ds1 ds2) :
    Text.decorations t ds1 = Text.decorations t ds2 :=
  decoFold_congr h [t]

theorem decorations_reads_only_edge_offsets_witness :
    Text.decorations ⟨['a', 'b', 'c'], 0, []⟩ [(⟨⟨[0], 1⟩, ⟨[0], 2⟩⟩, ["d"])] =
      Text.decorations ⟨['a', 'b', 'c'], 0, []⟩ [(⟨⟨[7, 7], 1⟩, ⟨[9], 2⟩⟩, ["d"])] :=
  decorations_reads_only_edge_offsets ⟨['a', 'b', 'c'], 0, []⟩ _ _
    (List.Forall₂.cons (by refine ⟨?_, ?_, rfl⟩ <;> decide) List.Forall₂.nil)

end Slate
